import Mathlib

/-!
Verification of the Market-Monitor drop-detection state machine
(`market_monitor.py`).  Prices are modelled as rationals; the asset state
mirrors the persisted record (`weekly_high`, `confirmed_drops`,
`recent_prices`); the `last_update` wall-clock timestamp carries no logic
and is omitted from the embedded state.
-/

namespace MarketMonitor

/-- The per-asset rolling state (`market_data[asset]` in the source). -/
structure AssetState where
  weekly_high : ℚ
  confirmed_drops : List ℕ
  recent_prices : List ℚ
deriving DecidableEq, Repr

/-- The zero-valued state created for an asset with no persisted record
(`_load_market_data`). -/
def initialState : AssetState := ⟨0, [], []⟩

/-- The fixed ascending threshold list of `check_price_drops`. -/
def drop_levels : List ℕ := [5, 10, 15, 20, 25]

/-- Window size: `max_history_points = int(self.price_history_hours * 12)`. -/
def maxHistoryPoints (price_history_hours : ℕ) : ℕ := price_history_hours * 12

/-- The window-trimming step of `update_asset_data`:
`if len(l) > W: l = l[-W:]`.  Python's `l[-W:]` keeps the last `W`
elements when `W ≥ 1` and the whole list when `W = 0`. -/
def trimWindow (W : ℕ) (l : List ℚ) : List ℚ :=
  if W < l.length then (if W = 0 then l else l.drop (l.length - W)) else l

/-- Python's `max` on a list, with 0 as the (never used) empty-list junk
value; `maxE` below models the exception on an empty sequence. -/
def listMax : List ℚ → ℚ
  | [] => 0
  | h :: t => t.foldl max h

/-- Python's `max`, raising (`Except.error`) on an empty sequence. -/
def maxE : List ℚ → Except String ℚ
  | [] => Except.error "max() arg is an empty sequence"
  | h :: t => Except.ok (t.foldl max h)

/-- Python slice `l[-3:]`: the trailing three samples (the whole list when it is
shorter, exactly as in Python). -/
def lastThree (l : List ℚ) : List ℚ := l.drop (l.length - 3)

/-- One iteration of the `for drop in drop_levels` loop of
`check_price_drops`, acting on the pair
(`confirmed_drops`, alerts emitted so far). -/
def dropStep (weekly_high : ℚ) (recent_prices : List ℚ)
    (acc : List ℕ × List ℕ) (d : ℕ) : List ℕ × List ℕ :=
  let threshold_price := weekly_high * (1 - (d : ℚ) / 100)
  if 3 ≤ recent_prices.length ∧
      (∀ p ∈ lastThree recent_prices, p ≤ threshold_price) ∧
      d ∉ acc.1 then
    (acc.1 ++ [d], acc.2 ++ [d])
  else acc

/-- Function `check_price_drops`: returns the updated `confirmed_drops` and the
list of thresholds for which an alert was emitted, in loop order. -/
def check_price_drops (weekly_high : ℚ) (recent_prices : List ℚ)
    (confirmed : List ℕ) : List ℕ × List ℕ :=
  drop_levels.foldl (dropStep weekly_high recent_prices) (confirmed, [])

/-- The firing condition of `check_price_drops` for threshold `d`, read
off the `if` in the source: at least three samples, the trailing three
all at or below the threshold price, and `d` not already confirmed. -/
def fireCond (weekly_high : ℚ) (recent_prices : List ℚ)
    (confirmed : List ℕ) (d : ℕ) : Bool :=
  decide (3 ≤ recent_prices.length ∧
    (∀ p ∈ lastThree recent_prices,
      p ≤ weekly_high * (1 - (d : ℚ) / 100)) ∧
    d ∉ confirmed)

/-- The state after the first two steps of `update_asset_data` (append,
trim, candidate-high update) and before `check_price_drops`. -/
def postHighState (W : ℕ) (s : AssetState) (p : ℚ) : AssetState :=
  let recent := trimWindow W (s.recent_prices ++ [p])
  if s.weekly_high < p ∧ p = listMax recent then
    ⟨p, [], recent⟩
  else
    ⟨s.weekly_high, s.confirmed_drops, recent⟩

/-- Function `update_asset_data`: append and trim the window, update the weekly
high (clearing `confirmed_drops` on a reset), then run
`check_price_drops`; returns the new state and the emitted alert
thresholds. -/
def update_asset_data (W : ℕ) (s : AssetState) (current_price : ℚ) :
    AssetState × List ℕ :=
  let recent := trimWindow W (s.recent_prices ++ [current_price])
  let hc :=
    if s.weekly_high < current_price ∧ current_price = listMax recent then
      (current_price, ([] : List ℕ))
    else (s.weekly_high, s.confirmed_drops)
  let ca := check_price_drops hc.1 recent hc.2
  (⟨hc.1, ca.1, recent⟩, ca.2)

/-- The state component of one update. -/
def step (W : ℕ) (s : AssetState) (p : ℚ) : AssetState :=
  (update_asset_data W s p).1

/-- Variant of `update_asset_data` with every place where the Python code could
raise made explicit: `max` on an empty sequence is the only such place,
and it is modelled by `maxE`. -/
def update_asset_dataE (W : ℕ) (s : AssetState) (current_price : ℚ) :
    Except String (AssetState × List ℕ) := do
  let recent := trimWindow W (s.recent_prices ++ [current_price])
  let m ← maxE recent
  let hc :=
    if s.weekly_high < current_price ∧ current_price = m then
      (current_price, ([] : List ℕ))
    else (s.weekly_high, s.confirmed_drops)
  let ca := check_price_drops hc.1 recent hc.2
  return (⟨hc.1, ca.1, recent⟩, ca.2)

/-- Function `send_alert` attempts delivery and swallows any failure; its only
observable datum is whether delivery succeeded, which the caller
ignores.  `deliver` gives the delivery outcome per threshold. -/
def send_alert (deliver : ℕ → Bool) (d : ℕ) : Bool := deliver d

/-- Variant of `check_price_drops` with delivery outcomes recorded: each emitted
alert is paired with the (swallowed) result of `send_alert`. -/
def dropStepD (deliver : ℕ → Bool) (weekly_high : ℚ)
    (recent_prices : List ℚ) (acc : List ℕ × List (ℕ × Bool)) (d : ℕ) :
    List ℕ × List (ℕ × Bool) :=
  let threshold_price := weekly_high * (1 - (d : ℚ) / 100)
  if 3 ≤ recent_prices.length ∧
      (∀ p ∈ lastThree recent_prices, p ≤ threshold_price) ∧
      d ∉ acc.1 then
    (acc.1 ++ [d], acc.2 ++ [(d, send_alert deliver d)])
  else acc

/-- Function `check_price_drops`, delivery-outcome-aware version. -/
def check_price_drops_d (deliver : ℕ → Bool) (weekly_high : ℚ)
    (recent_prices : List ℚ) (confirmed : List ℕ) :
    List ℕ × List (ℕ × Bool) :=
  drop_levels.foldl (dropStepD deliver weekly_high recent_prices)
    (confirmed, [])

/-- Function `update_asset_data`, delivery-outcome-aware version. -/
def update_asset_data_d (deliver : ℕ → Bool) (W : ℕ) (s : AssetState)
    (current_price : ℚ) : AssetState × List (ℕ × Bool) :=
  let recent := trimWindow W (s.recent_prices ++ [current_price])
  let hc :=
    if s.weekly_high < current_price ∧ current_price = listMax recent then
      (current_price, ([] : List ℕ))
    else (s.weekly_high, s.confirmed_drops)
  let ca := check_price_drops_d deliver hc.1 recent hc.2
  (⟨hc.1, ca.1, recent⟩, ca.2)

/-- One cycle of the `run` loop over the asset list: fetch each asset's
price; on `none` skip it (no state change), on `some p` update that
asset's slot in the mapping. -/
def runCycle (W : ℕ) (fetch : String → Option ℚ) (assets : List String)
    (m : String → AssetState) : String → AssetState :=
  assets.foldl
    (fun acc a =>
      match fetch a with
      | none => acc
      | some p => fun b => if b = a then step W (acc a) p else acc b)
    m

/-- The retry loop of `get_price`.  `tryFetch i` is the outcome of the
`i`-th fetch attempt; the result records the returned price (if any),
the number of attempts made, and the total time slept.  The Python code
sleeps `delay` after a failed attempt only when `attempt <
max_retries - 1`, i.e. when further attempts remain. -/
def getPriceLoop (tryFetch : ℕ → Option ℚ) (delay : ℕ) :
    ℕ → ℕ → Option ℚ × ℕ × ℕ
  | _, 0 => (none, 0, 0)
  | i, n + 1 =>
    match tryFetch i with
    | some p => (some p, 1, 0)
    | none =>
      let rest := getPriceLoop tryFetch delay (i + 1) n
      (rest.1, rest.2.1 + 1, (if 0 < n then delay else 0) + rest.2.2)

/-- Function `get_price`: up to `max_retries` attempts with `delay` seconds slept
between consecutive attempts; `none` when all attempts fail. -/
def get_price (tryFetch : ℕ → Option ℚ) (max_retries delay : ℕ) :
    Option ℚ × ℕ × ℕ :=
  getPriceLoop tryFetch delay 0 max_retries

/-- The state reached after feeding the first `i` samples of `ps` to
`update_asset_data`, starting from `s`. -/
def statesAfter (W : ℕ) (s : AssetState) (ps : List ℚ) (i : ℕ) :
    AssetState :=
  (ps.take i).foldl (step W) s

/-- Whether threshold `d` fires on the `i`-th update of the run. -/
def firesAt (W : ℕ) (s : AssetState) (ps : List ℚ) (d i : ℕ) : Bool :=
  decide (d ∈ (update_asset_data W (statesAfter W s ps i) (ps.getD i 0)).2)

/-- The alert thresholds emitted by one update. -/
def alertsOf (W : ℕ) (s : AssetState) (p : ℚ) : List ℕ :=
  drop_levels.filter
    (fireCond (postHighState W s p).weekly_high
      (postHighState W s p).recent_prices
      (postHighState W s p).confirmed_drops)

/-! ### Helper lemmas -/

lemma self_le_foldl_max (t : List ℚ) (a : ℚ) : a ≤ t.foldl max a := by
  induction t generalizing a with
  | nil => simp
  | cons b t ih =>
    simp only [List.foldl_cons]
    exact le_trans (le_max_left a b) (ih (max a b))

lemma le_foldl_max (t : List ℚ) (a q : ℚ) (h : q ∈ t ∨ q = a) :
    q ≤ t.foldl max a := by
  induction t generalizing a with
  | nil =>
    rcases h with h | h
    · simp at h
    · simp [h]
  | cons b t ih =>
    simp only [List.foldl_cons]
    rcases h with h | h
    · rcases List.mem_cons.mp h with h | h
      · subst h
        exact le_trans (le_max_right a q) (self_le_foldl_max t (max a q))
      · exact ih (max a b) (Or.inl h)
    · subst h
      exact le_trans (le_max_left q b) (self_le_foldl_max t (max q b))

lemma foldl_max_mem (t : List ℚ) (a : ℚ) :
    t.foldl max a = a ∨ t.foldl max a ∈ t := by
  induction t generalizing a with
  | nil => simp
  | cons b t ih =>
    simp only [List.foldl_cons]
    rcases ih (max a b) with h | h
    · rcases max_choice a b with hc | hc
      · left; rw [h, hc]
      · right; rw [h, hc]; exact List.mem_cons_self b t
    · right; exact List.mem_cons_of_mem b h

lemma listMax_mem {w : List ℚ} (hw : w ≠ []) : listMax w ∈ w := by
  cases w with
  | nil => exact absurd rfl hw
  | cons h t =>
    rcases foldl_max_mem t h with h' | h'
    · rw [listMax, h']; exact List.mem_cons_self h t
    · exact List.mem_cons_of_mem h h'

lemma le_listMax {w : List ℚ} {q : ℚ} (hq : q ∈ w) : q ≤ listMax w := by
  cases w with
  | nil => simp at hq
  | cons h t =>
    rcases List.mem_cons.mp hq with h' | h'
    · exact le_foldl_max t h q (Or.inr h')
    · exact le_foldl_max t h q (Or.inl h')

/-- Equality `p = max w` is the same as `p` bounding the window, whenever `p` is
itself in the window. -/
lemma max_char {w : List ℚ} {p : ℚ} (hp : p ∈ w) :
    p = listMax w ↔ ∀ q ∈ w, q ≤ p := by
  constructor
  · intro h q hq
    rw [h]
    exact le_listMax hq
  · intro h
    have h1 : listMax w ≤ p := h _ (listMax_mem (List.ne_nil_of_mem hp))
    exact le_antisymm (le_listMax hp) h1

/-- The trimmed window always ends with the freshly appended sample. -/
lemma trim_append (W : ℕ) (l : List ℚ) (p : ℚ) :
    ∃ l', trimWindow W (l ++ [p]) = l' ++ [p] := by
  unfold trimWindow
  split
  · split
    · exact ⟨l, rfl⟩
    · refine ⟨l.drop ((l ++ [p]).length - W), ?_⟩
      rw [List.drop_append_eq_append_drop]
      have hlen : (l ++ [p]).length - W - l.length = 0 := by
        simp only [List.length_append, List.length_singleton]
        omega
      rw [hlen, List.drop_zero]
  · exact ⟨l, rfl⟩

lemma trim_ne_nil {W : ℕ} {l : List ℚ} (hl : l ≠ []) :
    trimWindow W l ≠ [] := by
  unfold trimWindow
  split
  · split
    · exact hl
    · intro hcon
      have := congrArg List.length hcon
      simp only [List.length_drop, List.length_nil] at this
      omega
  · exact hl

/-- The core of `check_price_drops`: folding the loop body over a
duplicate-free threshold list appends, to both `confirmed_drops` and
the emitted-alert list, exactly the thresholds whose firing condition
held at loop entry. -/
lemma foldl_dropStep_eq (h : ℚ) (r : List ℚ) :
    ∀ (ds : List ℕ), ds.Nodup → ∀ (conf al : List ℕ),
      ds.foldl (dropStep h r) (conf, al) =
        (conf ++ ds.filter (fireCond h r conf),
         al ++ ds.filter (fireCond h r conf)) := by
  intro ds
  induction ds with
  | nil => intro _ conf al; simp
  | cons d rest ih =>
    intro hnd conf al
    have hd : d ∉ rest := (List.nodup_cons.mp hnd).1
    have hrest : rest.Nodup := (List.nodup_cons.mp hnd).2
    have hcongr : ∀ x ∈ rest,
        fireCond h r (conf ++ [d]) x = fireCond h r conf x := by
      intro x hx
      have hxd : x ≠ d := fun hcon => hd (hcon ▸ hx)
      simp only [fireCond, decide_eq_decide]
      constructor
      · rintro ⟨h1, h2, h3⟩
        exact ⟨h1, h2, fun hc => h3 (List.mem_append_left _ hc)⟩
      · rintro ⟨h1, h2, h3⟩
        refine ⟨h1, h2, fun hc => ?_⟩
        rcases List.mem_append.mp hc with hc | hc
        · exact h3 hc
        · simp at hc; exact hxd hc
    simp only [List.foldl_cons]
    by_cases hc : 3 ≤ r.length ∧
        (∀ q ∈ lastThree r, q ≤ h * (1 - (d : ℚ) / 100)) ∧ d ∉ conf
    · have hfire : fireCond h r conf d = true := by
        simp only [fireCond, decide_eq_true_eq]; exact hc
      rw [show dropStep h r (conf, al) d = (conf ++ [d], al ++ [d]) by
        simp only [dropStep]; rw [if_pos hc]]
      rw [ih hrest (conf ++ [d]) (al ++ [d])]
      rw [List.filter_congr hcongr]
      rw [List.filter_cons_of_pos hfire]
      simp
    · have hfire : fireCond h r conf d = false := by
        simp only [fireCond, decide_eq_false_iff_not]; exact hc
      rw [show dropStep h r (conf, al) d = (conf, al) by
        simp only [dropStep]; rw [if_neg hc]]
      rw [ih hrest conf al]
      rw [List.filter_cons_of_neg (by simp [hfire])]

/-- Lemma: `check_price_drops` appends the fired thresholds to
`confirmed_drops` and returns them as the alert list. -/
lemma check_eq (h : ℚ) (r : List ℚ) (conf : List ℕ) :
    check_price_drops h r conf =
      (conf ++ drop_levels.filter (fireCond h r conf),
       drop_levels.filter (fireCond h r conf)) := by
  have hnd : drop_levels.Nodup := by decide
  exact foldl_dropStep_eq h r drop_levels hnd conf []

/-- Decomposition: `update_asset_data` is the candidate-high step followed
by the drop check. -/
lemma update_eq (W : ℕ) (s : AssetState) (p : ℚ) :
    update_asset_data W s p =
      (⟨(postHighState W s p).weekly_high,
        (postHighState W s p).confirmed_drops ++ alertsOf W s p,
        (postHighState W s p).recent_prices⟩,
       alertsOf W s p) := by
  simp only [update_asset_data, postHighState, alertsOf, check_eq]
  split <;> rfl

lemma postHigh_recent (W : ℕ) (s : AssetState) (p : ℚ) :
    (postHighState W s p).recent_prices =
      trimWindow W (s.recent_prices ++ [p]) := by
  simp only [postHighState]
  split <;> rfl

/-- If the update did not change the weekly high, the candidate-high step
took its else-branch, so the high and the confirmed set entered
`check_price_drops` unchanged. -/
lemma not_reset_of_high_eq (W : ℕ) (s : AssetState) (p : ℚ)
    (hsame : (update_asset_data W s p).1.weekly_high = s.weekly_high) :
    (postHighState W s p).confirmed_drops = s.confirmed_drops ∧
    (postHighState W s p).weekly_high = s.weekly_high := by
  have h1 : (update_asset_data W s p).1.weekly_high =
      (postHighState W s p).weekly_high := by rw [update_eq]
  by_cases hc : s.weekly_high < p ∧
      p = listMax (trimWindow W (s.recent_prices ++ [p]))
  · exfalso
    have h2 : (postHighState W s p).weekly_high = p := by
      simp only [postHighState]
      rw [if_pos hc]
    rw [h1, h2] at hsame
    exact absurd (hsame ▸ hc.1) (lt_irrefl p)
  · constructor <;> · simp only [postHighState]; rw [if_neg hc]

/-- Every emitted alert threshold lands in the new `confirmed_drops`. -/
lemma alerts_subset_conf (W : ℕ) (s : AssetState) (p : ℚ) :
    ∀ d ∈ (update_asset_data W s p).2,
      d ∈ (update_asset_data W s p).1.confirmed_drops := by
  rw [update_eq]
  intro d hd
  exact List.mem_append_right _ hd

/-- A threshold already confirmed when `check_price_drops` starts cannot
fire again. -/
lemma no_refire (W : ℕ) (s : AssetState) (p : ℚ) (d : ℕ)
    (hconf : d ∈ (postHighState W s p).confirmed_drops) :
    d ∉ (update_asset_data W s p).2 := by
  rw [update_eq]
  intro hd
  have := (List.mem_filter.mp hd).2
  simp only [fireCond, decide_eq_true_eq] at this
  exact this.2.2 hconf

/-! ### C1 -/

/-- C1: during one update — after the sample is appended, the window
trimmed and the candidate high recomputed — an alert for threshold `d`
is emitted iff the window holds at least 3 samples, the trailing 3
samples are all at or below `weekly_high * (1 - d/100)`, and `d` is not
already in `confirmed_drops`; the alert list is exactly the ascending
list `[5,10,15,20,25]` filtered by that condition, so every eligible
threshold fires independently in the same update, the alerts come out
in ascending threshold order, and an already-confirmed threshold emits
no duplicate. -/
theorem C1_alerts_iff_filter (W : ℕ) (s : AssetState) (p : ℚ) :
    (update_asset_data W s p).2 =
      drop_levels.filter (fun (d : ℕ) =>
        decide (3 ≤ (postHighState W s p).recent_prices.length ∧
          (∀ q ∈ lastThree (postHighState W s p).recent_prices,
            q ≤ (postHighState W s p).weekly_high * (1 - (d : ℚ) / 100)) ∧
          d ∉ (postHighState W s p).confirmed_drops)) := by
  rw [update_eq]
  rfl

/-! ### C2 -/

/-- C2: the candidate-high step sets `weekly_high := current_price` and
clears `confirmed_drops` iff `current_price` strictly exceeds the old
high and is the maximum of the already-updated window (expressed as
bounding every window entry, which is equivalent because the freshly
appended sample is in the window); otherwise the step leaves
`weekly_high` and `confirmed_drops` unchanged.  The full update keeps
this step's high and window. -/
theorem C2_candidate_high (W : ℕ) (s : AssetState) (p : ℚ) :
    (postHighState W s p =
      if s.weekly_high < p ∧
          ∀ q ∈ trimWindow W (s.recent_prices ++ [p]), q ≤ p then
        ⟨p, [], trimWindow W (s.recent_prices ++ [p])⟩
      else
        ⟨s.weekly_high, s.confirmed_drops,
          trimWindow W (s.recent_prices ++ [p])⟩) ∧
    (update_asset_data W s p).1.weekly_high =
      (postHighState W s p).weekly_high ∧
    (update_asset_data W s p).1.recent_prices =
      (postHighState W s p).recent_prices := by
  obtain ⟨l', hw⟩ := trim_append W s.recent_prices p
  have hmem : p ∈ trimWindow W (s.recent_prices ++ [p]) := by
    rw [hw]
    exact List.mem_append_right _ (by simp)
  refine ⟨?_, ?_, ?_⟩
  · have hiff : (s.weekly_high < p ∧
        p = listMax (trimWindow W (s.recent_prices ++ [p]))) ↔
        (s.weekly_high < p ∧
          ∀ q ∈ trimWindow W (s.recent_prices ++ [p]), q ≤ p) :=
      and_congr_right fun _ => max_char hmem
    simp only [postHighState]
    exact if_congr hiff rfl rfl
  · rw [update_eq]
  · rw [update_eq]

/-! ### C6 -/

/-- C6: the detector update is total and deterministic: modelling every
place where the Python code could raise (only `max` on an empty
sequence) with `Except`, the operation always returns `Except.ok` of
the pure result — it never raises, and as a function of exactly
`(state, current_price)` it yields equal outputs on equal inputs. -/
theorem C6_total_deterministic (W : ℕ) (s : AssetState) (p : ℚ) :
    update_asset_dataE W s p = Except.ok (update_asset_data W s p) := by
  have hne : trimWindow W (s.recent_prices ++ [p]) ≠ [] :=
    trim_ne_nil (by simp)
  unfold update_asset_dataE update_asset_data
  cases hw : trimWindow W (s.recent_prices ++ [p]) with
  | nil => exact absurd hw hne
  | cons a t => simp [hw, maxE, listMax]

/-! ### C3 -/

lemma high_mono_step (W : ℕ) (s : AssetState) (p : ℚ) :
    s.weekly_high ≤ (step W s p).weekly_high := by
  have h1 : (step W s p).weekly_high = (postHighState W s p).weekly_high := by
    rw [step, update_eq]
  rw [h1]
  by_cases hc : s.weekly_high < p ∧
      p = listMax (trimWindow W (s.recent_prices ++ [p]))
  · have h2 : (postHighState W s p).weekly_high = p := by
      simp only [postHighState]
      rw [if_pos hc]
    rw [h2]
    exact le_of_lt hc.1
  · have h2 : (postHighState W s p).weekly_high = s.weekly_high := by
      simp only [postHighState]
      rw [if_neg hc]
    rw [h2]

lemma statesAfter_succ_of_lt (W : ℕ) (s : AssetState) (ps : List ℚ)
    (i : ℕ) (hi : i < ps.length) :
    statesAfter W s ps (i + 1) =
      step W (statesAfter W s ps i) (ps.getD i 0) := by
  unfold statesAfter
  have hget : ps.take (i + 1) = ps.take i ++ [ps.getD i 0] := by
    rw [List.take_succ]
    congr 1
    have h1 : ps[i]? = some (ps.getD i 0) := by
      rw [List.getD_eq_getElem?_getD]
      cases h : ps[i]? with
      | none => exact absurd (List.getElem?_eq_none_iff.mp h) (by omega)
      | some a => rfl
    rw [h1]
    rfl
  rw [hget, List.foldl_append]
  rfl

/-- C3: along any run of positive price samples from any starting state,
`weekly_high` never decreases: after each update it is at least its
value before that update. -/
theorem C3_high_monotone (W : ℕ) (s : AssetState) (ps : List ℚ)
    (hpos : ∀ p ∈ ps, 0 < p) (i : ℕ) (hi : i < ps.length) :
    (statesAfter W s ps i).weekly_high ≤
      (statesAfter W s ps (i + 1)).weekly_high := by
  rw [statesAfter_succ_of_lt W s ps i hi]
  exact high_mono_step W _ _

/-- Witness for C3 at a concrete run. -/
theorem C3_high_monotone_witness :
    (statesAfter 36 initialState [1] 0).weekly_high ≤
      (statesAfter 36 initialState [1] 1).weekly_high :=
  C3_high_monotone 36 initialState [1] (by decide) 0 (by decide)

/-! ### C5 -/

/-- C5: if the window held at most `W` samples before the update
(`W = price_history_hours * 12 ≥ 1`), it holds at most `W` after it,
and the retained entries are exactly the most recent ones — the update
keeps the trailing segment of the appended sequence, evicting oldest
entries first. -/
theorem C5_window_bound (W : ℕ) (s : AssetState) (p : ℚ) (hW : 1 ≤ W)
    (hlen : s.recent_prices.length ≤ W) :
    (update_asset_data W s p).1.recent_prices.length ≤ W ∧
    (update_asset_data W s p).1.recent_prices =
      (s.recent_prices ++ [p]).drop
        ((s.recent_prices ++ [p]).length - W) := by
  have hrec : (update_asset_data W s p).1.recent_prices =
      trimWindow W (s.recent_prices ++ [p]) := by
    rw [update_eq]
    exact postHigh_recent W s p
  rw [hrec]
  unfold trimWindow
  split
  · rw [if_neg (by omega : ¬W = 0)]
    constructor
    · rw [List.length_drop]
      omega
    · rfl
  · constructor
    · simp only [List.length_append, List.length_singleton] at *
      omega
    · have h0 : (s.recent_prices ++ [p]).length - W = 0 := by omega
      rw [h0, List.drop_zero]

/-- Witness for C5 at a concrete state. -/
theorem C5_window_bound_witness :
    (update_asset_data 36 initialState 1).1.recent_prices.length ≤ 36 ∧
    (update_asset_data 36 initialState 1).1.recent_prices =
      (initialState.recent_prices ++ [1]).drop
        ((initialState.recent_prices ++ [1]).length - 36) :=
  C5_window_bound 36 initialState 1 (by decide) (by decide)

/-! ### C10 -/

/-- The freshly appended sample is among the trailing three samples of
the post-update window. -/
lemma mem_lastThree_self (W : ℕ) (l : List ℚ) (p : ℚ) :
    p ∈ lastThree (trimWindow W (l ++ [p])) := by
  obtain ⟨l', hw⟩ := trim_append W l p
  rw [hw]
  unfold lastThree
  rw [List.drop_append_eq_append_drop]
  have h0 : (l' ++ [p]).length - 3 - l'.length = 0 := by
    simp only [List.length_append, List.length_singleton]
    omega
  rw [h0, List.drop_zero]
  exact List.mem_append_right _ (by simp)

/-- C10: an update that sets a new weekly high emits no alerts, for any
positive sample: the new sample equals the new high, sits in the
trailing three, and strictly exceeds `weekly_high * (1 - d/100)` for
every `d` in `[5,10,15,20,25]`. -/
theorem C10_no_alert_on_new_high (W : ℕ) (s : AssetState) (p : ℚ)
    (hpos : 0 < p)
    (hreset : s.weekly_high < (update_asset_data W s p).1.weekly_high) :
    (update_asset_data W s p).2 = [] := by
  have h1 : (update_asset_data W s p).1.weekly_high =
      (postHighState W s p).weekly_high := by rw [update_eq]
  have hP : (postHighState W s p).weekly_high = p := by
    by_cases hc : s.weekly_high < p ∧
        p = listMax (trimWindow W (s.recent_prices ++ [p]))
    · simp only [postHighState]
      rw [if_pos hc]
    · exfalso
      have h2 : (postHighState W s p).weekly_high = s.weekly_high := by
        simp only [postHighState]
        rw [if_neg hc]
      rw [h1, h2] at hreset
      exact lt_irrefl _ hreset
  rw [update_eq]
  show alertsOf W s p = []
  unfold alertsOf
  rw [List.filter_eq_nil_iff]
  intro d hd
  simp only [fireCond, decide_eq_true_eq]
  rintro ⟨-, hall, -⟩
  have hplast : p ∈ lastThree ((postHighState W s p).recent_prices) := by
    rw [postHigh_recent]
    exact mem_lastThree_self W s.recent_prices p
  have hle := hall p hplast
  rw [hP] at hle
  have hd5 : 5 ≤ d := by
    simp only [drop_levels, List.mem_cons, List.not_mem_nil, or_false] at hd
    rcases hd with rfl | rfl | rfl | rfl | rfl <;> norm_num
  have hdq : (0 : ℚ) < (d : ℚ) / 100 := by
    have : (5 : ℚ) ≤ (d : ℚ) := by exact_mod_cast hd5
    linarith
  have hmul : (0 : ℚ) < p * ((d : ℚ) / 100) := mul_pos hpos hdq
  have hring : p * (1 - (d : ℚ) / 100) = p - p * ((d : ℚ) / 100) := by ring
  rw [hring] at hle
  linarith

/-- Witness for C10 at a concrete reset. -/
theorem C10_no_alert_on_new_high_witness :
    (update_asset_data 36 ⟨1, [], [1, 1]⟩ 2).2 = [] :=
  C10_no_alert_on_new_high 36 ⟨1, [], [1, 1]⟩ 2 (by norm_num)
    (by decide)

/-! ### C4 -/

lemma statesAfter_zero (W : ℕ) (s : AssetState) (ps : List ℚ) :
    statesAfter W s ps 0 = s := rfl

lemma statesAfter_cons_succ (W : ℕ) (s : AssetState) (p : ℚ)
    (rest : List ℚ) (i : ℕ) :
    statesAfter W s (p :: rest) (i + 1) =
      statesAfter W (step W s p) rest i := rfl

lemma firesAt_cons_succ (W : ℕ) (s : AssetState) (p : ℚ)
    (rest : List ℚ) (d i : ℕ) :
    firesAt W s (p :: rest) d (i + 1) =
      firesAt W (step W s p) rest d i := rfl

/-- A confirmed threshold survives an update that does not change the
weekly high, and does not fire in it. -/
lemma confirmed_persists (W : ℕ) (s : AssetState) (p : ℚ) (d : ℕ)
    (hsame : (step W s p).weekly_high = s.weekly_high)
    (hd : d ∈ s.confirmed_drops) :
    d ∉ (update_asset_data W s p).2 ∧
    d ∈ (step W s p).confirmed_drops := by
  have hpost := not_reset_of_high_eq W s p hsame
  constructor
  · exact no_refire W s p d (hpost.1 ▸ hd)
  · have hconf : (step W s p).confirmed_drops =
        (postHighState W s p).confirmed_drops ++ alertsOf W s p := by
      rw [step, update_eq]
    rw [hconf, hpost.1]
    exact List.mem_append_left _ hd

/-- Once `d` is confirmed, no later update of a run whose weekly high
stays constant fires `d` again. -/
lemma fires_count_zero (W d : ℕ) :
    ∀ (ps : List ℚ) (t : AssetState), d ∈ t.confirmed_drops →
      (∀ i < ps.length, (statesAfter W t ps (i + 1)).weekly_high =
        (statesAfter W t ps i).weekly_high) →
      (List.range ps.length).countP (firesAt W t ps d) = 0 := by
  intro ps
  induction ps with
  | nil => intro t _ _; rfl
  | cons p rest ih =>
    intro t hd hh
    have hsame : (step W t p).weekly_high = t.weekly_high :=
      hh 0 (by simp)
    have hpers := confirmed_persists W t p d hsame hd
    have hshift : ∀ i < rest.length,
        (statesAfter W (step W t p) rest (i + 1)).weekly_high =
          (statesAfter W (step W t p) rest i).weekly_high := by
      intro i hi
      exact hh (i + 1) (by simp; omega)
    have hz := ih (step W t p) hpers.2 hshift
    have hf0 : firesAt W t (p :: rest) d 0 = false := by
      simp only [firesAt, decide_eq_false_iff_not]
      exact hpers.1
    simp only [List.length_cons, List.range_succ_eq_map,
      List.countP_cons, hf0, List.countP_map]
    have hcomp : (firesAt W t (p :: rest) d ∘ Nat.succ) =
        firesAt W (step W t p) rest d := rfl
    rw [hcomp]
    simpa using hz

/-- Threshold `d` fires at most once along a run whose weekly high never
changes. -/
lemma fires_count_le_one (W d : ℕ) :
    ∀ (ps : List ℚ) (s : AssetState),
      (∀ i < ps.length, (statesAfter W s ps (i + 1)).weekly_high =
        (statesAfter W s ps i).weekly_high) →
      (List.range ps.length).countP (firesAt W s ps d) ≤ 1 := by
  intro ps
  induction ps with
  | nil => intro s _; simp
  | cons p rest ih =>
    intro s hh
    have hsame : (step W s p).weekly_high = s.weekly_high :=
      hh 0 (by simp)
    have hshift : ∀ i < rest.length,
        (statesAfter W (step W s p) rest (i + 1)).weekly_high =
          (statesAfter W (step W s p) rest i).weekly_high := by
      intro i hi
      exact hh (i + 1) (by simp; omega)
    have hcomp : (firesAt W s (p :: rest) d ∘ Nat.succ) =
        firesAt W (step W s p) rest d := rfl
    simp only [List.length_cons, List.range_succ_eq_map,
      List.countP_cons, List.countP_map, hcomp]
    by_cases hf : firesAt W s (p :: rest) d 0 = true
    · have hdconf : d ∈ (step W s p).confirmed_drops := by
        have hmem : d ∈ (update_asset_data W s p).2 := by
          have := of_decide_eq_true hf
          exact this
        exact alerts_subset_conf W s p d hmem
      have hz := fires_count_zero W d rest (step W s p) hdconf hshift
      rw [hz, hf]
      simp
    · have hf' : firesAt W s (p :: rest) d 0 = false :=
        Bool.eq_false_iff.mpr hf
      rw [hf']
      simpa using ih (step W s p) hshift

lemma conf_subset_step (W : ℕ) (s : AssetState) (p : ℚ)
    (hs : s.confirmed_drops ⊆ drop_levels) :
    (step W s p).confirmed_drops ⊆ drop_levels := by
  have hconf : (step W s p).confirmed_drops =
      (postHighState W s p).confirmed_drops ++ alertsOf W s p := by
    rw [step, update_eq]
  rw [hconf]
  intro d hd
  rcases List.mem_append.mp hd with hd | hd
  · by_cases hc : s.weekly_high < p ∧
        p = listMax (trimWindow W (s.recent_prices ++ [p]))
    · have h2 : (postHighState W s p).confirmed_drops = [] := by
        simp only [postHighState]
        rw [if_pos hc]
      rw [h2] at hd
      simp at hd
    · have h2 : (postHighState W s p).confirmed_drops =
          s.confirmed_drops := by
        simp only [postHighState]
        rw [if_neg hc]
      exact hs (h2 ▸ hd)
  · unfold alertsOf at hd
    exact List.mem_of_mem_filter hd

lemma conf_subset_run (W : ℕ) :
    ∀ (qs : List ℚ) (s : AssetState),
      s.confirmed_drops ⊆ drop_levels → ∀ i,
        (statesAfter W s qs i).confirmed_drops ⊆ drop_levels := by
  intro qs
  induction qs with
  | nil =>
    intro s hs i
    have h : statesAfter W s [] i = s := by
      unfold statesAfter
      simp
    rw [h]
    exact hs
  | cons p rest ih =>
    intro s hs i
    cases i with
    | zero => exact hs
    | succ i =>
      rw [statesAfter_cons_succ]
      exact ih (step W s p) (conf_subset_step W s p hs) i

/-- C4: each threshold `d` fires at most once between two consecutive
increases of `weekly_high` — along any stretch of updates over which
the weekly high stays constant, the number of updates emitting an alert
for `d` is at most one — and, starting from the zero-valued state,
`confirmed_drops` stays a subset of `{5,10,15,20,25}` after every
update. -/
theorem C4_once_per_epoch (W : ℕ) (s : AssetState) (ps : List ℚ) (d : ℕ)
    (hh : ∀ i < ps.length, (statesAfter W s ps (i + 1)).weekly_high =
      (statesAfter W s ps i).weekly_high) :
    (List.range ps.length).countP (firesAt W s ps d) ≤ 1 ∧
    ∀ (qs : List ℚ) (i : ℕ),
      (statesAfter W initialState qs i).confirmed_drops ⊆ drop_levels := by
  constructor
  · exact fires_count_le_one W d ps s hh
  · intro qs i
    exact conf_subset_run W qs initialState (by simp [initialState]) i

/-- Witness for C4 at a concrete epoch: from a state with high 100 and a
full window, three samples at 90 keep the high constant and fire the 5%
threshold exactly once. -/
theorem C4_once_per_epoch_witness :
    (List.range ([90, 90, 90] : List ℚ).length).countP
      (firesAt 36 ⟨100, [], [100, 100, 100]⟩ [90, 90, 90] 5) ≤ 1 ∧
    ∀ (qs : List ℚ) (i : ℕ),
      (statesAfter 36 initialState qs i).confirmed_drops ⊆ drop_levels :=
  C4_once_per_epoch 36 ⟨100, [], [100, 100, 100]⟩ [90, 90, 90] 5
    (by decide)

/-! ### C7 -/

/-- C7: within one scheduler cycle, an asset whose price fetch fails is
skipped entirely — the cycle over `a :: rest` equals the cycle over
`rest` alone (no sample appended, no high update, no alert evaluated
for `a`, and the remaining assets are still processed), and the failed
asset's slot in the state mapping is left unchanged by the whole
cycle. -/
theorem C7_fetch_failure_skips (W : ℕ) (fetch : String → Option ℚ)
    (a : String) (rest : List String) (assets : List String)
    (m : String → AssetState) (hfail : fetch a = none) :
    runCycle W fetch (a :: rest) m = runCycle W fetch rest m ∧
    runCycle W fetch assets m a = m a := by
  constructor
  · simp only [runCycle, List.foldl_cons, hfail]
  · induction assets generalizing m with
    | nil => rfl
    | cons x xs ih =>
      simp only [runCycle, List.foldl_cons]
      cases hx : fetch x with
      | none => exact ih m
      | some p =>
        have hslot :
            (fun b => if b = x then step W (m x) p else m b) a = m a := by
          by_cases hax : a = x
          · rw [hax, hx] at hfail
            exact absurd hfail (by simp)
          · simp [hax]
        rw [← hslot]
        exact ih _

/-- Witness for C7 at a concrete cycle. -/
theorem C7_fetch_failure_skips_witness :
    runCycle 36 (fun x => if x = "Bitcoin" then none else some 1)
        ["Bitcoin", "Ethereum"] (fun _ => initialState) =
      runCycle 36 (fun x => if x = "Bitcoin" then none else some 1)
        ["Ethereum"] (fun _ => initialState) ∧
    runCycle 36 (fun x => if x = "Bitcoin" then none else some 1)
        ["Bitcoin", "Ethereum"] (fun _ => initialState) "Bitcoin" =
      (fun _ => initialState : String → AssetState) "Bitcoin" :=
  C7_fetch_failure_skips 36 (fun x => if x = "Bitcoin" then none else some 1)
    "Bitcoin" ["Ethereum"] ["Bitcoin", "Ethereum"] (fun _ => initialState)
    (by simp)

/-! ### C8 -/

/-- C8: `get_price` makes at most 3 attempts; if all 3 fail it returns
the failure indicator `none` (no exception) after exactly 3 attempts
and `2 * 60` seconds of inter-attempt sleeping (no sleep after the
final attempt); if attempt `i` is the first to succeed it returns that
price after `i + 1` attempts and `i * 60` seconds of sleeping. -/
theorem C8_retry_contract (tryFetch : ℕ → Option ℚ) :
    (get_price tryFetch 3 60).2.1 ≤ 3 ∧
    (tryFetch 0 = none → tryFetch 1 = none → tryFetch 2 = none →
      get_price tryFetch 3 60 = (none, 3, 120)) ∧
    (∀ i p, i < 3 → tryFetch i = some p → (∀ j < i, tryFetch j = none) →
      get_price tryFetch 3 60 = (some p, i + 1, i * 60)) := by
  have e1 : get_price tryFetch 3 60 =
      match tryFetch 0 with
      | some p => (some p, 1, 0)
      | none =>
        match tryFetch 1 with
        | some p => (some p, 2, 60)
        | none =>
          match tryFetch 2 with
          | some p => (some p, 3, 120)
          | none => (none, 3, 120) := by
    show getPriceLoop tryFetch 60 0 3 = _
    cases h0 : tryFetch 0 <;> cases h1 : tryFetch 1 <;>
      cases h2 : tryFetch 2 <;>
        simp only [getPriceLoop, h0, h1, h2] <;> rfl
  refine ⟨?_, ?_, ?_⟩
  · rw [e1]
    cases h0 : tryFetch 0 <;> cases h1 : tryFetch 1 <;>
      cases h2 : tryFetch 2 <;> simp [h0, h1, h2]
  · intro h0 h1 h2
    rw [e1, h0, h1, h2]
  · intro i p hi hip hprev
    interval_cases i
    · rw [e1, hip]
    · rw [e1, hprev 0 (by omega), hip]
    · rw [e1, hprev 0 (by omega), hprev 1 (by omega), hip]

/-- Witness for C8: all attempts failing yields `none` after 3 attempts
and 120 seconds of sleeping. -/
theorem C8_retry_contract_witness :
    get_price (fun _ => none) 3 60 = (none, 3, 120) :=
  (C8_retry_contract (fun _ => none)).2.1 rfl rfl rfl

/-! ### C9 -/

/-- The delivery-aware drop-check loop: same confirmed set as the pure
one, and alerts tagged with their (ignored) delivery outcome. -/
lemma foldl_dropStepD_eq (deliver : ℕ → Bool) (h : ℚ) (r : List ℚ) :
    ∀ (ds : List ℕ), ds.Nodup → ∀ (conf : List ℕ) (al : List (ℕ × Bool)),
      ds.foldl (dropStepD deliver h r) (conf, al) =
        (conf ++ ds.filter (fireCond h r conf),
         al ++ (ds.filter (fireCond h r conf)).map
           (fun d => (d, deliver d))) := by
  intro ds
  induction ds with
  | nil => intro _ conf al; simp
  | cons d rest ih =>
    intro hnd conf al
    have hd : d ∉ rest := (List.nodup_cons.mp hnd).1
    have hrest : rest.Nodup := (List.nodup_cons.mp hnd).2
    have hcongr : ∀ x ∈ rest,
        fireCond h r (conf ++ [d]) x = fireCond h r conf x := by
      intro x hx
      have hxd : x ≠ d := fun hcon => hd (hcon ▸ hx)
      simp only [fireCond, decide_eq_decide]
      constructor
      · rintro ⟨h1, h2, h3⟩
        exact ⟨h1, h2, fun hc => h3 (List.mem_append_left _ hc)⟩
      · rintro ⟨h1, h2, h3⟩
        refine ⟨h1, h2, fun hc => ?_⟩
        rcases List.mem_append.mp hc with hc | hc
        · exact h3 hc
        · simp at hc; exact hxd hc
    simp only [List.foldl_cons]
    by_cases hc : 3 ≤ r.length ∧
        (∀ q ∈ lastThree r, q ≤ h * (1 - (d : ℚ) / 100)) ∧ d ∉ conf
    · have hfire : fireCond h r conf d = true := by
        simp only [fireCond, decide_eq_true_eq]; exact hc
      rw [show dropStepD deliver h r (conf, al) d =
          (conf ++ [d], al ++ [(d, send_alert deliver d)]) by
        simp only [dropStepD]; rw [if_pos hc]]
      rw [ih hrest (conf ++ [d]) (al ++ [(d, send_alert deliver d)])]
      rw [List.filter_congr hcongr]
      rw [List.filter_cons_of_pos hfire]
      simp [send_alert]
    · have hfire : fireCond h r conf d = false := by
        simp only [fireCond, decide_eq_false_iff_not]; exact hc
      rw [show dropStepD deliver h r (conf, al) d = (conf, al) by
        simp only [dropStepD]; rw [if_neg hc]]
      rw [ih hrest conf al]
      rw [List.filter_cons_of_neg (by simp [hfire])]

lemma check_d_eq (deliver : ℕ → Bool) (h : ℚ) (r : List ℚ)
    (conf : List ℕ) :
    check_price_drops_d deliver h r conf =
      ((check_price_drops h r conf).1,
       (check_price_drops h r conf).2.map (fun d => (d, deliver d))) := by
  rw [check_eq]
  exact foldl_dropStepD_eq deliver h r drop_levels (by decide) conf []

/-- C9: a threshold that becomes eligible is confirmed no matter how
delivery goes: the delivery-aware update produces exactly the pure
update's state (so `confirmed_drops` is independent of the delivery
outcomes, a failed alert being swallowed inside `send_alert`), every
fired threshold ends up in `confirmed_drops`, and a threshold already
confirmed before an update that leaves the weekly high unchanged is not
re-attempted. -/
theorem C9_delivery_independent (deliver : ℕ → Bool) (W : ℕ)
    (s : AssetState) (p : ℚ) :
    update_asset_data_d deliver W s p =
      ((update_asset_data W s p).1,
       (update_asset_data W s p).2.map
         (fun d => (d, send_alert deliver d))) ∧
    (∀ d ∈ (update_asset_data W s p).2,
      d ∈ (update_asset_data W s p).1.confirmed_drops) ∧
    (∀ d ∈ s.confirmed_drops,
      (update_asset_data W s p).1.weekly_high = s.weekly_high →
        d ∉ (update_asset_data W s p).2) := by
  refine ⟨?_, alerts_subset_conf W s p, ?_⟩
  · simp only [update_asset_data_d, update_asset_data, check_d_eq,
      send_alert]
  · intro d hd hsame
    exact no_refire W s p d ((not_reset_of_high_eq W s p hsame).1 ▸ hd)

/-- Witness for C9: with delivery always failing, a threshold confirmed
in the epoch is not re-attempted. -/
theorem C9_delivery_independent_witness :
    5 ∉ (update_asset_data 3 ⟨100, [5], [95, 94, 93]⟩ 93).2 :=
  (C9_delivery_independent (fun _ => false) 3 ⟨100, [5], [95, 94, 93]⟩
    93).2.2 5 (by decide) (by decide)

end MarketMonitor
